import Mathlib

/-!
# Verification of the go-digitaltwin change-detection and content-addressing engine

This file shallowly embeds the core data model and algorithms of the
`go-digitaltwin/go-digitaltwin` repository in Lean 4 and proves properties of
that embedding.

Modelling conventions:

* The four 20-byte content addresses (`NodeHash`, `ComponentID`,
  `ComponentHash`, `ForestHash`, Go type `contentAddress = [sha1.Size]byte`)
  are modelled as byte lists (`Bytes := List Nat`).  `bytes.Compare` is the
  lexicographic order on byte lists, which coincides with the `LinearOrder`
  on `List Nat`.
* SHA-1 itself is kept abstract: every definition that feeds bytes into a
  `sha1.New()` digest takes an explicit `sha1 : Bytes → Bytes` argument and
  applies it to the concatenation of everything written to the digest
  (incremental `h.Write` calls concatenate their inputs).  Theorems
  universally quantify over this function; no property of SHA-1 beyond
  functionality is used.
* Go maps (`map[K]V`) are modelled as association lists with unique keys;
  `sort.Slice` with a `bytes.Compare` comparator is modelled as
  `List.insertionSort` with the lexicographic order (for the totally ordered
  keys in use the sorted result is unique, so the choice of algorithm is
  irrelevant).
-/

namespace DigitalTwin

/-- Raw byte strings: the common content of the Go `contentAddress` values. -/
abbrev Bytes := List Nat

/-- The Go `sort.Slice(xs, func(i, j) bool { return bytes.Compare(xs[i][:], xs[j][:]) < 0 })`
idiom: sort a list of byte strings lexicographically. -/
def sortBytes (l : List Bytes) : List Bytes :=
  l.insertionSort (· ≤ ·)

theorem sortBytes_perm (l : List Bytes) : List.Perm (sortBytes l) l :=
  List.perm_insertionSort _ l

theorem sortBytes_sorted (l : List Bytes) : (sortBytes l).Sorted (· ≤ ·) :=
  List.sorted_insertionSort _ l

/-- Sorting byte strings is invariant under permutation of the input: the
lexicographic order is total and antisymmetric, so the sorted result is the
unique sorted arrangement of the multiset. -/
theorem sortBytes_eq_of_perm {l₁ l₂ : List Bytes} (h : List.Perm l₁ l₂) :
    sortBytes l₁ = sortBytes l₂ :=
  List.eq_of_perm_of_sorted
    (((sortBytes_perm l₁).trans h).trans (sortBytes_perm l₂).symm)
    (sortBytes_sorted l₁) (sortBytes_sorted l₂)

section AssocList

variable {κ : Type} {β : Type} [DecidableEq κ]

/-- Association-list lookup, modelling `v, ok := m[k]` on a Go map. -/
def lookupA : List (κ × β) → κ → Option β
  | [], _ => none
  | p :: rest, k => if p.1 = k then some p.2 else lookupA rest k

/-- Association-list insert-or-replace, modelling `m[k] = v` on a Go map. -/
def insertA : List (κ × β) → κ → β → List (κ × β)
  | [], k, v => [(k, v)]
  | p :: rest, k, v => if p.1 = k then (k, v) :: rest else p :: insertA rest k v

/-- Association-list removal, modelling `delete(m, k)` on a Go map. -/
def eraseA : List (κ × β) → κ → List (κ × β)
  | [], _ => []
  | p :: rest, k => if p.1 = k then rest else p :: eraseA rest k

@[simp] theorem lookupA_nil (k : κ) : lookupA ([] : List (κ × β)) k = none := rfl

@[simp] theorem lookupA_cons (p : κ × β) (rest : List (κ × β)) (k : κ) :
    lookupA (p :: rest) k = if p.1 = k then some p.2 else lookupA rest k := rfl

theorem lookupA_isSome_iff_mem_keys (l : List (κ × β)) (k : κ) :
    (lookupA l k).isSome = true ↔ k ∈ l.map Prod.fst := by
  induction l with
  | nil => simp
  | cons p rest ih =>
    by_cases h : p.1 = k
    · simp [h]
    · have h' : k ≠ p.1 := fun hc => h hc.symm
      simp [h, h', ih]

theorem lookupA_eq_some_of_mem {l : List (κ × β)} {k : κ} {v : β}
    (hnd : (l.map Prod.fst).Nodup) (hm : (k, v) ∈ l) : lookupA l k = some v := by
  induction l with
  | nil => simp at hm
  | cons p rest ih =>
    simp only [List.map_cons, List.nodup_cons] at hnd
    rcases List.mem_cons.mp hm with hm | hm
    · simp [← hm]
    · have hk : p.1 ≠ k := by
        intro h
        exact hnd.1 (h ▸ (List.mem_map_of_mem Prod.fst hm))
      simp [hk, ih hnd.2 hm]

theorem mem_of_lookupA_eq_some {l : List (κ × β)} {k : κ} {v : β}
    (h : lookupA l k = some v) : (k, v) ∈ l := by
  induction l with
  | nil => simp at h
  | cons p rest ih =>
    by_cases hk : p.1 = k
    · simp only [lookupA_cons, hk, if_pos rfl] at h
      cases h
      exact hk ▸ List.mem_cons_self (p.1, p.2) rest
    · simp only [lookupA_cons, if_neg hk] at h
      exact List.mem_cons_of_mem _ (ih h)

/-- Lookups in an association list with unique keys are invariant under
permutations of the entries. -/
theorem lookupA_eq_of_perm {l₁ l₂ : List (κ × β)} (hp : List.Perm l₁ l₂)
    (hnd : (l₁.map Prod.fst).Nodup) (k : κ) : lookupA l₁ k = lookupA l₂ k := by
  have hnd₂ : (l₂.map Prod.fst).Nodup := (hp.map Prod.fst).nodup_iff.mp hnd
  cases h₁ : lookupA l₁ k with
  | none =>
    cases h₂ : lookupA l₂ k with
    | none => rfl
    | some v =>
      have : (k, v) ∈ l₁ := hp.symm.subset (mem_of_lookupA_eq_some h₂)
      rw [lookupA_eq_some_of_mem hnd this] at h₁
      exact absurd h₁ (by simp)
  | some v =>
    have : (k, v) ∈ l₂ := hp.subset (mem_of_lookupA_eq_some h₁)
    rw [lookupA_eq_some_of_mem hnd₂ this]

end AssocList

/-- A node's content address (Go type NodeHash). -/
abbrev NodeHash := Bytes

/-- An assembly's identity hash over its roots (Go type ComponentID). -/
abbrev ComponentID := Bytes

/-- An assembly's full-content hash (Go type ComponentHash). -/
abbrev ComponentHash := Bytes

/-- A forest-level hash (Go type ForestHash). -/
abbrev ForestHash := Bytes

/-- The engine's snapshot, Go type
snapshot = map[digitaltwin.ComponentID]digitaltwin.ComponentHash,
modelled as an association list with unique keys. -/
abbrev Snapshot := List (ComponentID × ComponentHash)

/-- Embedding of (s snapshot).PartialDiff(partial, dirtyRoots) from the
neo4jengine package.

The Go function iterates the partial map once: an id missing from s
is appended to created, an id present with a different hash is appended to
updated, and an unchanged id is skipped.  It then iterates dirtyRoots,
appending ids that were keys of s but are no longer keys of partial to
removed.  The two loops over maps are modelled as filters over the
association list (the iteration order of a Go map is unspecified; the
entry-by-entry decisions are order-independent). -/
def PartialDiff (s partialSnap : Snapshot) (dirtyRoots : List ComponentID) :
    List ComponentID × List ComponentID × List ComponentID :=
  let created :=
    (partialSnap.filter fun e => !(lookupA s e.1).isSome).map Prod.fst
  let updated := (partialSnap.filter fun e =>
    match lookupA s e.1 with
    | some oldHash => oldHash != e.2
    | none => false).map Prod.fst
  let removed := dirtyRoots.filter fun id =>
    !(lookupA partialSnap id).isSome && (lookupA s id).isSome
  (created, updated, removed)

/-- C1: For every full snapshot S, partial snapshot P, and list of dirty-root
ComponentIDs D, PartialDiff(S, P, D) returns exactly: created = the ids in P
that are not keys of S; updated = the ids in both P and S whose hashes differ;
removed = the ids in D that are keys of S but not of P; ids present in both
with equal hashes are returned in none of the three lists. -/
theorem partialDiff_spec (S P : Snapshot) (D : List ComponentID)
    (hP : (P.map Prod.fst).Nodup) :
    (∀ id, id ∈ (PartialDiff S P D).1 ↔
      id ∈ P.map Prod.fst ∧ id ∉ S.map Prod.fst) ∧
    (∀ id, id ∈ (PartialDiff S P D).2.1 ↔
      ∃ newHash oldHash, lookupA P id = some newHash ∧
        lookupA S id = some oldHash ∧ oldHash ≠ newHash) ∧
    (∀ id, id ∈ (PartialDiff S P D).2.2 ↔
      id ∈ D ∧ id ∈ S.map Prod.fst ∧ id ∉ P.map Prod.fst) ∧
    (∀ id h, lookupA P id = some h → lookupA S id = some h →
      id ∉ (PartialDiff S P D).1 ∧ id ∉ (PartialDiff S P D).2.1 ∧
        id ∉ (PartialDiff S P D).2.2) := by
  have hkeyP : ∀ id, (lookupA P id).isSome = true ↔ id ∈ P.map Prod.fst :=
    lookupA_isSome_iff_mem_keys P
  have hkeyS : ∀ id, (lookupA S id).isSome = true ↔ id ∈ S.map Prod.fst :=
    lookupA_isSome_iff_mem_keys S
  have hcreated : ∀ id, id ∈ (PartialDiff S P D).1 ↔
      id ∈ P.map Prod.fst ∧ id ∉ S.map Prod.fst := by
    intro id
    show id ∈ (P.filter fun e => !(lookupA S e.1).isSome).map Prod.fst ↔ _
    constructor
    · intro hmem
      rcases List.mem_map.mp hmem with ⟨e, hef, rfl⟩
      rcases List.mem_filter.mp hef with ⟨heP, hcond⟩
      refine ⟨List.mem_map_of_mem Prod.fst heP, ?_⟩
      intro hmemS
      rw [← hkeyS] at hmemS
      simp [hmemS] at hcond
    · rintro ⟨hp, hs⟩
      rcases List.mem_map.mp hp with ⟨e, heP, rfl⟩
      refine List.mem_map_of_mem Prod.fst (List.mem_filter.mpr ⟨heP, ?_⟩)
      rw [← hkeyS] at hs
      simpa using hs
  have hupdated : ∀ id, id ∈ (PartialDiff S P D).2.1 ↔
      ∃ newHash oldHash, lookupA P id = some newHash ∧
        lookupA S id = some oldHash ∧ oldHash ≠ newHash := by
    intro id
    show id ∈ (P.filter fun e =>
      match lookupA S e.1 with
      | some oldHash => oldHash != e.2
      | none => false).map Prod.fst ↔ _
    constructor
    · intro hmem
      rcases List.mem_map.mp hmem with ⟨e, hef, rfl⟩
      rcases List.mem_filter.mp hef with ⟨heP, hcond⟩
      cases hS : lookupA S e.1 with
      | none => rw [hS] at hcond; simp at hcond
      | some oldHash =>
        rw [hS] at hcond
        refine ⟨e.2, oldHash, lookupA_eq_some_of_mem hP heP, rfl, ?_⟩
        simpa using hcond
    · rintro ⟨newHash, oldHash, hp, hs, hne⟩
      refine List.mem_map_of_mem Prod.fst
        (List.mem_filter.mpr ⟨mem_of_lookupA_eq_some hp, ?_⟩)
      show (match lookupA S id with
        | some oldHash => oldHash != newHash
        | none => false) = true
      rw [hs]
      simpa using hne
  have hremoved : ∀ id, id ∈ (PartialDiff S P D).2.2 ↔
      id ∈ D ∧ id ∈ S.map Prod.fst ∧ id ∉ P.map Prod.fst := by
    intro id
    show id ∈ D.filter (fun id =>
      !(lookupA P id).isSome && (lookupA S id).isSome) ↔ _
    rw [List.mem_filter]
    constructor
    · rintro ⟨hD, hcond⟩
      rcases Bool.and_eq_true_iff.mp hcond with ⟨hp, hs⟩
      refine ⟨hD, (hkeyS id).mp hs, ?_⟩
      intro hmemP
      rw [← hkeyP] at hmemP
      simp [hmemP] at hp
    · rintro ⟨hD, hs, hp⟩
      refine ⟨hD, Bool.and_eq_true_iff.mpr ⟨?_, (hkeyS id).mpr hs⟩⟩
      rw [← hkeyP] at hp
      simpa using hp
  refine ⟨hcreated, hupdated, hremoved, ?_⟩
  intro id h hp hs
  refine ⟨?_, ?_, ?_⟩
  · rw [hcreated]
    rintro ⟨-, habs⟩
    exact habs ((hkeyS id).mp (by simp [hs]))
  · rw [hupdated]
    rintro ⟨newHash, oldHash, hp', hs', hne⟩
    rw [hp] at hp'
    rw [hs] at hs'
    cases hp'
    cases hs'
    exact hne rfl
  · rw [hremoved]
    rintro ⟨-, -, habs⟩
    exact habs ((hkeyP id).mp (by simp [hp]))

/-- Witness for C1 at a concrete input: S maps a↦x and c↦y; P maps a↦x2
(updated), b↦x (created); D = [a, b, c, d]; c is removed. -/
theorem partialDiff_spec_witness :
    (([([1], [7]), ([3], [9])] : Snapshot).map Prod.fst).Nodup ∧
    (PartialDiff [([0], [5]), ([3], [9])] [([1], [7]), ([3], [8])] [[0], [3], [4]]
      = ([[1]], [[3]], [[0]])) ∧
    (∀ id, id ∈ (PartialDiff [([0], [5]), ([3], [9])] [([1], [7]), ([3], [8])]
        [[0], [3], [4]]).2.2 ↔
      id ∈ [[0], [3], [4]] ∧
        id ∈ ([([0], [5]), ([3], [9])] : Snapshot).map Prod.fst ∧
        id ∉ ([([1], [7]), ([3], [8])] : Snapshot).map Prod.fst) :=
  ⟨by decide, by decide,
    (partialDiff_spec [([0], [5]), ([3], [9])] [([1], [7]), ([3], [8])]
      [[0], [3], [4]] (by decide)).2.2.1⟩

/-! ## Assembly model and content hashes

Embedding of AssemblyGraph (file assembly/graph code, Go struct with fields
Root, Vertices, Neighbours) and of its AssemblyID / AssemblyHash methods, and
of HashComponents from contentaddress.go.  The value type of a node payload is
abstract (a type parameter V). -/

/-- Go struct AssemblyGraph: Root []NodeHash, Vertices map[NodeHash]Value,
Neighbours map[NodeHash][]NodeHash.  The two maps are association lists. -/
structure AssemblyGraph (V : Type) where
  Root : List NodeHash
  Vertices : List (NodeHash × V)
  Neighbours : List (NodeHash × List NodeHash)
deriving DecidableEq

/-- Accessor Roots() of AssemblyGraph. -/
def AssemblyGraph.Roots {V : Type} (a : AssemblyGraph V) : List NodeHash :=
  a.Root

/-- Embedding of AssemblyGraph.AssemblyID with its side effect: the Go method
sorts the receiver's Root slice in place (sort.Slice with a bytes.Compare
comparator) and then hashes the sorted roots concatenated.  The returned pair
is (computed ComponentID, receiver as observable after the call). -/
def AssemblyIDRun {V : Type} (sha1 : Bytes → Bytes) (a : AssemblyGraph V) :
    ComponentID × AssemblyGraph V :=
  let sortedRoots := sortBytes a.Root
  (sha1 sortedRoots.flatten, { a with Root := sortedRoots })

/-- The value computed by AssemblyGraph.AssemblyID. -/
def AssemblyID {V : Type} (sha1 : Bytes → Bytes) (a : AssemblyGraph V) :
    ComponentID :=
  (AssemblyIDRun sha1 a).1

/-- Embedding of AssemblyGraph.AssemblyHash with its side effects: it calls
AssemblyID (sorting Root in place), writes the resulting id, then walks the
Vertices keys in sorted order writing each node hash followed by its
out-neighbours, sorting each visited neighbour slice in place.  A node of the
Vertices map with no Neighbours entry contributes the empty (nil) slice. -/
def AssemblyHashRun {V : Type} (sha1 : Bytes → Bytes) (a : AssemblyGraph V) :
    ComponentHash × AssemblyGraph V :=
  let idRun := AssemblyIDRun sha1 a
  let nodes := sortBytes (idRun.2.Vertices.map Prod.fst)
  let a2 := { idRun.2 with
    Neighbours := idRun.2.Neighbours.map fun p =>
      if p.1 ∈ nodes then (p.1, sortBytes p.2) else p }
  (sha1 (idRun.1 ++
    (nodes.map fun frm => frm ++ ((lookupA a2.Neighbours frm).getD []).flatten).flatten),
   a2)

/-- The value computed by AssemblyGraph.AssemblyHash. -/
def AssemblyHash {V : Type} (sha1 : Bytes → Bytes) (a : AssemblyGraph V) :
    ComponentHash :=
  (AssemblyHashRun sha1 a).1

/-- Embedding of HashComponents (contentaddress.go): collect the keys of the
components map, sort them lexicographically, and hash the concatenation of the
corresponding ComponentHashes in that order. -/
def HashComponents (sha1 : Bytes → Bytes)
    (components : List (ComponentID × ComponentHash)) : ForestHash :=
  let refs := sortBytes (components.map Prod.fst)
  sha1 ((refs.map fun ref => (lookupA components ref).getD []).flatten)

/-- C4: AssemblyID is the hash of the root hashes sorted lexicographically and
concatenated, using no other part of the assembly; consequently any two
assemblies whose root multisets agree (whatever their nodes, edges and
payloads) have the same ComponentID. -/
theorem assemblyID_roots_only {V : Type} (sha1 : Bytes → Bytes)
    (a a' : AssemblyGraph V) (hroots : List.Perm a.Root a'.Root) :
    AssemblyID sha1 a = sha1 (sortBytes a.Root).flatten ∧
      AssemblyID sha1 a = AssemblyID sha1 a' := by
  refine ⟨rfl, ?_⟩
  show sha1 (sortBytes a.Root).flatten = sha1 (sortBytes a'.Root).flatten
  rw [sortBytes_eq_of_perm hroots]

/-- A concrete two-root assembly with no vertices, used in witnesses. -/
def sampleAssemblyBare : AssemblyGraph Nat :=
  { Root := [[2], [1]], Vertices := [], Neighbours := [] }

/-- A concrete assembly with the same roots as sampleAssemblyBare (in the
other order) but different vertices and edges, used in witnesses. -/
def sampleAssemblyFull : AssemblyGraph Nat :=
  { Root := [[1], [2]], Vertices := [([3], 7)], Neighbours := [([3], [[4]])] }

/-- Witness for C4: two assemblies sharing the same roots in different order,
with entirely different vertices and edges, get the same ComponentID. -/
theorem assemblyID_roots_only_witness :
    List.Perm sampleAssemblyBare.Root sampleAssemblyFull.Root ∧
      AssemblyID (fun b => 9 :: b) sampleAssemblyBare
        = AssemblyID (fun b => 9 :: b) sampleAssemblyFull :=
  ⟨by decide,
    (assemblyID_roots_only (fun b => 9 :: b) sampleAssemblyBare
      sampleAssemblyFull (by decide)).2⟩

/-- C5: HashComponents depends only on the set of (ComponentID, ComponentHash)
pairs, not on any ordering: any two maps with the same pairs hash identically,
and the empty map hashes to the hash of the empty input. -/
theorem hashComponents_order_independent (sha1 : Bytes → Bytes)
    (c₁ c₂ : List (ComponentID × ComponentHash)) (hperm : List.Perm c₁ c₂)
    (hnd : (c₁.map Prod.fst).Nodup) :
    HashComponents sha1 c₁ = HashComponents sha1 c₂ ∧
      HashComponents sha1 [] = sha1 [] := by
  refine ⟨?_, rfl⟩
  show sha1 (((sortBytes (c₁.map Prod.fst)).map
      fun ref => (lookupA c₁ ref).getD []).flatten) = sha1 _
  rw [sortBytes_eq_of_perm (hperm.map Prod.fst)]
  congr 2
  refine List.map_congr_left fun ref _ => ?_
  rw [lookupA_eq_of_perm hperm hnd ref]

/-- Witness for C5: two orderings of the same two-component map. -/
theorem hashComponents_order_independent_witness :
    List.Perm ([([1], [7]), ([2], [8])] : List (ComponentID × ComponentHash))
        [([2], [8]), ([1], [7])] ∧
      (([([1], [7]), ([2], [8])] :
        List (ComponentID × ComponentHash)).map Prod.fst).Nodup ∧
      HashComponents (fun b => 9 :: b) [([1], [7]), ([2], [8])]
        = HashComponents (fun b => 9 :: b) [([2], [8]), ([1], [7])] :=
  ⟨by decide, by decide,
    (hashComponents_order_independent (fun b => 9 :: b)
      [([1], [7]), ([2], [8])] [([2], [8]), ([1], [7])]
      (by decide) (by decide)).1⟩

/-- C10: calling AssemblyID (and AssemblyHash, which invokes it) sorts the
receiver's Root slice in place: after the call, Roots() returns the root
hashes in lexicographically sorted order — a permutation of the originally
supplied roots, sorted. -/
theorem assemblyID_sorts_roots_in_place {V : Type} (sha1 : Bytes → Bytes)
    (a : AssemblyGraph V) :
    ((AssemblyIDRun sha1 a).2.Roots).Sorted (· ≤ ·) ∧
      List.Perm ((AssemblyIDRun sha1 a).2.Roots) a.Root ∧
      (AssemblyIDRun sha1 a).2.Roots = sortBytes a.Root ∧
      (AssemblyHashRun sha1 a).2.Roots = sortBytes a.Root :=
  ⟨sortBytes_sorted a.Root, sortBytes_perm a.Root, rfl, rfl⟩

/-! ## Change engine (neo4jengine)

Embedding of the pure core of Engine.WhatChanged (engine.go): the backend
queries, session handling and telemetry are abstracted away; the fetched
assemblies, the drained taints and the dirty-root ComponentIDs are the inputs
of the pure core.  The time.Now() UTC timestamp is outside the embedding. -/

/-- The changeset message (GraphChanged in eventsource.go), without its
timestamp.  Created carries the fetched assembly; Updated carries the old
snapshot hash (Baseline) plus the fetched assembly; Removed carries the last
known id and hash. -/
structure GraphChanged (V : Type) where
  GraphBefore : ForestHash
  Created : List (AssemblyGraph V)
  Updated : List (ComponentHash × AssemblyGraph V)
  Removed : List (ComponentID × ComponentHash)
  GraphAfter : ForestHash
deriving DecidableEq

/-- Errors WhatChanged's pure core can return; the Go sentinel
errFoundRootlessAssemblies. -/
inductive EngineError where
  | foundRootlessAssemblies
deriving DecidableEq

/-- The Go zero value of a contentAddress ([20]byte): twenty zero bytes.
Reading a missing key from a Go hash map yields this value. -/
def zeroHash : Bytes := List.replicate 20 0

/-- Embedding of (s snapshot).GraphHash() (engine code): the ForestHash of the
snapshot map. -/
def GraphHash (sha1 : Bytes → Bytes) (s : Snapshot) : ForestHash :=
  HashComponents sha1 s

/-- Embedding of (s snapshot).ContainsAssembly(a): true when the snapshot has
the assembly's id and the stored hash equals the assembly's current hash. -/
def ContainsAssembly {V : Type} (sha1 : Bytes → Bytes) (s : Snapshot)
    (a : AssemblyGraph V) : Bool :=
  match lookupA s (AssemblyID sha1 a) with
  | some h => h == AssemblyHash sha1 a
  | none => false

/-- Embedding of (s snapshot).Update(changes): add each created assembly's
(id, hash) entry, replace each updated assembly's entry, delete each removed
id. -/
def SnapUpdate {V : Type} (sha1 : Bytes → Bytes) (s : Snapshot)
    (changes : GraphChanged V) : Snapshot :=
  let s1 := changes.Created.foldl
    (fun acc a => insertA acc (AssemblyID sha1 a) (AssemblyHash sha1 a)) s
  let s2 := changes.Updated.foldl
    (fun acc u => insertA acc (AssemblyID sha1 u.2) (AssemblyHash sha1 u.2)) s1
  changes.Removed.foldl (fun acc r => eraseA acc r.1) s2

/-- The empty assembly: the zero value read from the changedAssemblies map at
a missing key.  (On the embedded paths every lookup hits.) -/
def emptyAssembly (V : Type) : AssemblyGraph V :=
  { Root := [], Vertices := [], Neighbours := [] }

/-- The pure core of Engine.WhatChanged (engine.go, after
fetchTaintedAssemblies and the dirtyRoots loop): build the next partial
snapshot and the changedAssemblies map from the fetched assemblies, count
rootless assemblies, diff, populate the GraphChanged message, and either
return the sentinel error with the snapshot untouched (rootless case) or
update the snapshot and fill in GraphAfter from the updated snapshot.

Returns (emitted changes, engine snapshot after the call, returned error). -/
def WhatChangedCore {V : Type} (sha1 : Bytes → Bytes) (snap : Snapshot)
    (assemblies : List (AssemblyGraph V)) (dirtyRoots : List ComponentID) :
    GraphChanged V × Snapshot × Option EngineError :=
  let next : Snapshot := assemblies.foldl
    (fun m a => insertA m (AssemblyID sha1 a) (AssemblyHash sha1 a)) []
  let changedAssemblies : List (ComponentID × AssemblyGraph V) :=
    assemblies.foldl
      (fun m a => if ContainsAssembly sha1 snap a then m
        else insertA m (AssemblyID sha1 a) a) []
  let rootlessAssemblies := (assemblies.filter fun a => a.Roots.length == 0).length
  let diff := PartialDiff snap next dirtyRoots
  let changes : GraphChanged V := {
    GraphBefore := GraphHash sha1 snap
    Created := diff.1.map fun id =>
      (lookupA changedAssemblies id).getD (emptyAssembly V)
    Updated := diff.2.1.map fun id =>
      ((lookupA snap id).getD zeroHash,
        (lookupA changedAssemblies id).getD (emptyAssembly V))
    Removed := diff.2.2.map fun id => (id, (lookupA snap id).getD zeroHash)
    GraphAfter := zeroHash }
  if rootlessAssemblies > 0 then
    (changes, snap, some EngineError.foundRootlessAssemblies)
  else
    let snap2 := SnapUpdate sha1 snap changes
    ({ changes with GraphAfter := GraphHash sha1 snap2 }, snap2, none)

/-- The engine state relevant to WhatChanged: the persisted snapshot and the
taint set (Engine.snapshot and Engine.taintedNodes).  A tainted RawNode is
modelled by its content address together with its parsed Value. -/
structure EngineState (V : Type) where
  snapshot : Snapshot
  taintedNodes : List (NodeHash × V)
deriving DecidableEq

/-- Embedding of componentID(taint) (engine code): parse the tainted node and
compute the ComponentID of the single-node assembly rooted at it, via an
AssemblyBuilder whose only root is the parsed value. -/
def taintComponentID {V : Type} (sha1 : Bytes → Bytes) (cav : V → NodeHash)
    (t : NodeHash × V) : ComponentID :=
  AssemblyID sha1
    ({ Root := [cav t.2], Vertices := [(cav t.2, t.2)], Neighbours := [] } :
      AssemblyGraph V)

/-- Embedding of fetchPartialAssemblies: for each taint, fetch the enclosing
assemblies from the backend (abstracted as the function fetch) and collect
them, deduplicating by ComponentID via the seen map.  (The paths on which the
same id reappears with a different hash panic in Go and are outside the
embedded fragment.) -/
def fetchPartialAssemblies {V : Type} (sha1 : Bytes → Bytes)
    (fetch : NodeHash × V → List (AssemblyGraph V))
    (taints : List (NodeHash × V)) : List (AssemblyGraph V) :=
  (taints.foldl
    (fun (acc : Snapshot × List (AssemblyGraph V)) t =>
      (fetch t).foldl
        (fun acc2 a =>
          if (lookupA acc2.1 (AssemblyID sha1 a)).isSome then acc2
          else (insertA acc2.1 (AssemblyID sha1 a) (AssemblyHash sha1 a),
            acc2.2 ++ [a]))
        acc)
    ([], [])).2

/-- Embedding of Engine.WhatChanged at the engine-state level: drain the taint
set (ClearTaints empties Engine.taintedNodes before the sweep), fetch the
tainted assemblies, compute the dirty roots, and run the pure core.  The
engine's state after the call pairs the resulting snapshot with the emptied
taint set. -/
def WhatChangedEngine {V : Type} (sha1 : Bytes → Bytes) (cav : V → NodeHash)
    (fetch : NodeHash × V → List (AssemblyGraph V)) (st : EngineState V) :
    GraphChanged V × EngineState V × Option EngineError :=
  let taints := st.taintedNodes
  let assemblies := fetchPartialAssemblies sha1 fetch taints
  let dirtyRoots := taints.map (taintComponentID sha1 cav)
  let core := WhatChangedCore sha1 st.snapshot assemblies dirtyRoots
  (core.1, { snapshot := core.2.1, taintedNodes := [] }, core.2.2)

/-- On a sweep that saw a rootless assembly, the pure core returns the
sentinel error and the snapshot it yields is the input snapshot. -/
theorem whatChangedCore_rootless {V : Type} (sha1 : Bytes → Bytes)
    (snap : Snapshot) (assemblies : List (AssemblyGraph V))
    (dirtyRoots : List ComponentID)
    (h : ∃ a ∈ assemblies, a.Roots = []) :
    (WhatChangedCore sha1 snap assemblies dirtyRoots).2.1 = snap ∧
      (WhatChangedCore sha1 snap assemblies dirtyRoots).2.2
        = some EngineError.foundRootlessAssemblies := by
  rcases h with ⟨a, ha, hroots⟩
  have hmem : a ∈ assemblies.filter fun a => a.Roots.length == 0 :=
    List.mem_filter.mpr ⟨ha, by simp [hroots]⟩
  have hpos : (assemblies.filter fun a => a.Roots.length == 0).length > 0 :=
    List.length_pos.mpr (List.ne_nil_of_mem hmem)
  simp only [WhatChangedCore]
  rw [if_pos hpos]
  exact ⟨rfl, rfl⟩

/-- C2 (amended): If any assembly fetched during a WhatChanged sweep has zero
roots, WhatChanged returns the sentinel error errFoundRootlessAssemblies and
the engine's snapshot is left unchanged — but the taint set has already been
drained by the failed call, so the engine state as a whole is not restored. -/
theorem whatChanged_rootless_keeps_snapshot {V : Type} (sha1 : Bytes → Bytes)
    (cav : V → NodeHash) (fetch : NodeHash × V → List (AssemblyGraph V))
    (st : EngineState V)
    (h : ∃ a ∈ fetchPartialAssemblies sha1 fetch st.taintedNodes,
      a.Roots = []) :
    (WhatChangedEngine sha1 cav fetch st).2.2
        = some EngineError.foundRootlessAssemblies ∧
      (WhatChangedEngine sha1 cav fetch st).2.1.snapshot = st.snapshot ∧
      (WhatChangedEngine sha1 cav fetch st).2.1.taintedNodes = [] := by
  have hcore := whatChangedCore_rootless sha1 st.snapshot
    (fetchPartialAssemblies sha1 fetch st.taintedNodes)
    (st.taintedNodes.map (taintComponentID sha1 cav)) h
  exact ⟨hcore.2, hcore.1, rfl⟩

/-- A backend query (abstracted) that returns one rootless assembly for every
tainted node: the situation the sentinel error guards against. -/
def rootlessFetch : NodeHash × Nat → List (AssemblyGraph Nat) :=
  fun _ => [emptyAssembly Nat]

/-- An engine state with an empty snapshot and one tainted node. -/
def rootlessState : EngineState Nat :=
  { snapshot := [], taintedNodes := [([5], 5)] }

/-- Counterexample to C2 as stated: the failed call does not leave the engine
state untouched (the taint set is drained), and the subsequent WhatChanged
call does not run as if the failed call had never happened — it succeeds with
no taints to sweep, whereas a call on the original state fails. -/
theorem whatChanged_rootless_counterexample :
    (WhatChangedEngine (fun b => b) (fun v => [v]) rootlessFetch
        rootlessState).2.2 = some EngineError.foundRootlessAssemblies ∧
      (WhatChangedEngine (fun b => b) (fun v => [v]) rootlessFetch
        rootlessState).2.1 ≠ rootlessState ∧
      (WhatChangedEngine (fun b => b) (fun v => [v]) rootlessFetch
        (WhatChangedEngine (fun b => b) (fun v => [v]) rootlessFetch
          rootlessState).2.1).2.2 = none := by
  decide

/-- Witness for C2 (amended) at a concrete input: the hypothesis holds for
rootlessFetch and rootlessState, and the theorem applies. -/
theorem whatChanged_rootless_keeps_snapshot_witness :
    (∃ a ∈ fetchPartialAssemblies (fun b => b) rootlessFetch
        rootlessState.taintedNodes, a.Roots = []) ∧
      (WhatChangedEngine (fun b => b) (fun v => [v]) rootlessFetch
          rootlessState).2.1.snapshot = rootlessState.snapshot :=
  ⟨⟨emptyAssembly Nat, by decide, rfl⟩,
    (whatChanged_rootless_keeps_snapshot (fun b => b) (fun v => [v])
      rootlessFetch rootlessState ⟨emptyAssembly Nat, by decide, rfl⟩).2.1⟩

/-- C3: For every successful (nil-error) WhatChanged sweep, the emitted
GraphChanged has GraphBefore equal to the ForestHash of the engine's snapshot
before the update, and GraphAfter equal to the ForestHash of the snapshot
obtained from it by adding each created entry, replacing each updated entry
and deleting each removed entry (snapshot.Update); the engine's stored
snapshot after the call is that updated snapshot. -/
theorem whatChanged_graphAfter {V : Type} (sha1 : Bytes → Bytes)
    (snap : Snapshot) (assemblies : List (AssemblyGraph V))
    (dirtyRoots : List ComponentID)
    (hok : (WhatChangedCore sha1 snap assemblies dirtyRoots).2.2 = none) :
    (WhatChangedCore sha1 snap assemblies dirtyRoots).1.GraphBefore
        = GraphHash sha1 snap ∧
      (WhatChangedCore sha1 snap assemblies dirtyRoots).1.GraphAfter
        = GraphHash sha1 (SnapUpdate sha1 snap
            (WhatChangedCore sha1 snap assemblies dirtyRoots).1) ∧
      (WhatChangedCore sha1 snap assemblies dirtyRoots).2.1
        = SnapUpdate sha1 snap
            (WhatChangedCore sha1 snap assemblies dirtyRoots).1 := by
  by_cases hr : (assemblies.filter fun a => a.Roots.length == 0).length > 0
  · exfalso
    simp only [WhatChangedCore] at hok
    rw [if_pos hr] at hok
    exact Option.noConfusion hok
  · simp only [WhatChangedCore]
    rw [if_neg hr]
    exact ⟨rfl, rfl, rfl⟩

/-- A concrete single-root assembly used for the C3 witness. -/
def sampleAssemblySingle : AssemblyGraph Nat :=
  { Root := [[1]], Vertices := [([1], 5)], Neighbours := [] }

/-- Witness for C3 at a concrete input: a sweep that created one assembly
succeeds, and the theorem applies to it. -/
theorem whatChanged_graphAfter_witness :
    (WhatChangedCore (fun b => b) [] [sampleAssemblySingle] []).2.2 = none ∧
      (WhatChangedCore (fun b => b) [] [sampleAssemblySingle] []).1.GraphAfter
        = GraphHash (fun b => b) (SnapUpdate (fun b => b) []
            (WhatChangedCore (fun b => b) [] [sampleAssemblySingle] []).1) :=
  ⟨by decide,
    (whatChanged_graphAfter (fun b => b) [] [sampleAssemblySingle] []
      (by decide)).2.1⟩

/-! ## Reflective content addressing (contentaddress.go)

Embedding of newNodeHash + reflectiveContentAddress over a representative
universe of exported-field values: strings, platform-width ints and uints
(varint encoded), booleans (fixed-width), structs of such base fields,
pointers to base or struct types, and interface fields holding any of those.
Fields implementing ContentAddresser or encoding.BinaryMarshaler, the skipped
embedded InformationElement marker, unexported fields, and the slice/array
cases are outside the modeled fragment; within the fragment the Go encoder
never reaches an unsupported kind, so it is total, exactly as in the source.
Byte emission for strings is modelled codepoint-wise (the exact byte image of
a string never matters for the properties proved). -/

/-- Base field values: Go kinds handled directly by the kind switch. -/
inductive Bval where
  | str (s : String)
  | intv (i : Int)
  | uintv (n : Nat)
  | boolv (b : Bool)
deriving DecidableEq

/-- The types of base field values (for pointer zero values). -/
inductive Bty where
  | strT
  | intT
  | uintT
  | boolT
deriving DecidableEq

/-- The Go zero value of a base type. -/
def zeroB : Bty → Bval
  | .strT => .str ""
  | .intT => .intv 0
  | .uintT => .uintv 0
  | .boolT => .boolv false

/-- Pointed-to types in the modeled fragment. -/
inductive Pty where
  | baseT (τ : Bty)
  | structT (fields : List (String × Bty))
deriving DecidableEq

/-- Values of pointed-to types. -/
inductive PVal where
  | base (b : Bval)
  | structv (fields : List (String × Bval))
deriving DecidableEq

/-- Go reflect.New(elemType).Elem(): a freshly zeroed value of the pointed-to
type. -/
def zeroP : Pty → PVal
  | .baseT τ => .base (zeroB τ)
  | .structT fs => .structv (fs.map fun p => (p.1, zeroB p.2))

/-- Concrete (non-interface) values an interface-typed field can hold. -/
inductive IVal where
  | base (b : Bval)
  | structv (fields : List (String × Bval))
  | ptrv (τ : Pty) (v : Option PVal)
deriving DecidableEq

/-- Exported field values of a payload in the modeled fragment. -/
inductive Fval where
  | base (b : Bval)
  | structv (fields : List (String × Bval))
  | ptrv (τ : Pty) (v : Option PVal)
  | ifacev (v : Option IVal)
deriving DecidableEq

/-- The bytes written for a string (digest.Write([]byte(s))), modelled
codepoint-wise. -/
def strBytes (s : String) : List Nat :=
  s.toList.map Char.toNat

/-- binary.PutUvarint: little-endian base-128 groups with continuation bit. -/
def putUvarint (n : Nat) : List Nat :=
  if h : n < 128 then [n]
  else (n % 128 + 128) :: putUvarint (n / 128)
decreasing_by exact Nat.div_lt_self (by omega) (by omega)

/-- binary.PutVarint: zigzag encoding followed by PutUvarint. -/
def putVarint (i : Int) : List Nat :=
  putUvarint (if i < 0 then 2 * (-i).toNat - 1 else 2 * i.toNat)

/-- The bytes the kind switch writes for a base value: strings write their
bytes, int/uint write varints, bool writes its fixed-width binary form. -/
def encodeB : Bval → List Nat
  | .str s => strBytes s
  | .intv i => putVarint i
  | .uintv n => putUvarint n
  | .boolv b => [if b then 1 else 0]

/-- The comparator of the sort.Slice call in reflectiveContentAddress:
fields[i].Name < fields[j].Name, as a non-strict order for sorting. -/
def nameLe {β : Type} (a b : String × β) : Prop :=
  a.1 ≤ b.1

instance {β : Type} : DecidableRel (@nameLe β) :=
  fun a b => inferInstanceAs (Decidable (a.1 ≤ b.1))

instance {β : Type} : IsTotal (String × β) nameLe :=
  ⟨fun a b => le_total a.1 b.1⟩

instance {β : Type} : IsTrans (String × β) nameLe :=
  ⟨fun _ _ _ h₁ h₂ => le_trans h₁ h₂⟩

/-- The field sort of reflectiveContentAddress: sort the visible fields by
name so declaration order never affects the hash. -/
def sortByName {β : Type} (fs : List (String × β)) : List (String × β) :=
  fs.insertionSort nameLe

/-- The byte stream a nested struct contributes: its fields in ascending
name order, each as field name followed by its encoded value. -/
def encodeStructBody (fs : List (String × Bval)) : List Nat :=
  ((sortByName fs).map fun f => strBytes f.1 ++ encodeB f.2).flatten

/-- The bytes written for a pointed-to value. -/
def encodeP : PVal → List Nat
  | .base b => encodeB b
  | .structv fs => encodeStructBody fs

/-- The bytes written for the concrete value unpacked from a non-nil
interface field: pointers are then unpacked (nil pointers hash as the zero
value of the pointed-to type), and the kind switch handles the rest. -/
def encodeI : IVal → List Nat
  | .base b => encodeB b
  | .structv fs => encodeStructBody fs
  | .ptrv τ none => encodeP (zeroP τ)
  | .ptrv _ (some v) => encodeP v

/-- The bytes a field value contributes after its name: a nil interface is
skipped entirely (no value bytes); a non-nil interface is unpacked; a nil
pointer is replaced by the zero value of its pointed-to type; a non-nil
pointer is unpacked; base and struct values go through the kind switch. -/
def encodeField : Fval → List Nat
  | .base b => encodeB b
  | .structv fs => encodeStructBody fs
  | .ptrv τ none => encodeP (zeroP τ)
  | .ptrv _ (some v) => encodeP v
  | .ifacev none => []
  | .ifacev (some v) => encodeI v

/-- Embedding of reflectiveContentAddress: sort the exported fields by name,
then for each write its name followed by its encoded value. -/
def reflectiveContentAddress (fields : List (String × Fval)) : List Nat :=
  ((sortByName fields).map fun f => strBytes f.1 ++ encodeField f.2).flatten

/-- Embedding of ContentAddress via newNodeHash: the type preamble (package
path then type name) followed by the reflective field emission, hashed. -/
def ContentAddress (sha1 : Bytes → Bytes) (pkg tyName : String)
    (fields : List (String × Fval)) : NodeHash :=
  sha1 (strBytes pkg ++ strBytes tyName ++ reflectiveContentAddress fields)

/-- Two sorted field lists that are permutations of each other and have
pairwise-distinct names are equal. -/
theorem eq_of_perm_of_sorted_names {β : Type} :
    ∀ {l₁ l₂ : List (String × β)}, List.Perm l₁ l₂ →
      l₁.Sorted nameLe → l₂.Sorted nameLe → (l₁.map Prod.fst).Nodup →
        l₁ = l₂ := by
  intro l₁
  induction l₁ with
  | nil =>
    intro l₂ hp _ _ _
    exact hp.nil_eq
  | cons a t₁ ih =>
    intro l₂ hp hs₁ hs₂ hnd
    cases l₂ with
    | nil => exact absurd hp.eq_nil (List.cons_ne_nil a t₁)
    | cons b t₂ =>
      have hab : a = b := by
        by_contra hne
        have hbmem : b ∈ a :: t₁ := hp.symm.subset (List.mem_cons_self b t₂)
        have hamem : a ∈ b :: t₂ := hp.subset (List.mem_cons_self a t₁)
        have hb₁ : b ∈ t₁ := by
          rcases List.mem_cons.mp hbmem with h | h
          · exact absurd h.symm hne
          · exact h
        have ha₂ : a ∈ t₂ := by
          rcases List.mem_cons.mp hamem with h | h
          · exact absurd h hne
          · exact h
        have h₁ : nameLe a b := (List.sorted_cons.mp hs₁).1 b hb₁
        have h₂ : nameLe b a := (List.sorted_cons.mp hs₂).1 a ha₂
        have hkey : b.1 = a.1 := le_antisymm h₂ h₁
        have hmem : a.1 ∈ t₁.map Prod.fst :=
          hkey ▸ List.mem_map_of_mem Prod.fst hb₁
        exact (List.nodup_cons.mp (by simpa using hnd)).1 hmem
      subst hab
      have ht := ih hp.cons_inv (List.sorted_cons.mp hs₁).2
        (List.sorted_cons.mp hs₂).2
        (List.nodup_cons.mp (by simpa using hnd)).2
      rw [ht]

/-- Sorting by field name commutes with permutations of field lists with
distinct names. -/
theorem sortByName_eq_of_perm {β : Type} {l₁ l₂ : List (String × β)}
    (hp : List.Perm l₁ l₂) (hnd : (l₁.map Prod.fst).Nodup) :
    sortByName l₁ = sortByName l₂ := by
  refine eq_of_perm_of_sorted_names
    (((List.perm_insertionSort nameLe l₁).trans hp).trans
      (List.perm_insertionSort nameLe l₂).symm)
    (List.sorted_insertionSort nameLe l₁)
    (List.sorted_insertionSort nameLe l₂) ?_
  exact (((List.perm_insertionSort nameLe l₁).map Prod.fst).nodup_iff).mpr hnd

/-- C6: the reflective content-addresser emits exported fields in ascending
field-name order, so two struct payloads with the same package path, type
name and exported fields that differ only in field declaration order produce
the identical NodeHash. -/
theorem contentAddress_field_order_independent (sha1 : Bytes → Bytes)
    (pkg tyName : String) (f₁ f₂ : List (String × Fval))
    (hperm : List.Perm f₁ f₂) (hnd : (f₁.map Prod.fst).Nodup) :
    ContentAddress sha1 pkg tyName f₁ = ContentAddress sha1 pkg tyName f₂ := by
  unfold ContentAddress reflectiveContentAddress
  rw [sortByName_eq_of_perm hperm hnd]

/-- Witness for C6: the same two fields declared in the two possible orders
hash identically. -/
theorem contentAddress_field_order_independent_witness :
    List.Perm [("B", Fval.base (Bval.intv 1)), ("A", Fval.base (Bval.str "x"))]
        [("A", Fval.base (Bval.str "x")), ("B", Fval.base (Bval.intv 1))] ∧
      (([("B", Fval.base (Bval.intv 1)),
        ("A", Fval.base (Bval.str "x"))].map Prod.fst)).Nodup ∧
      ContentAddress (fun b => 9 :: b) "pkg" "T"
          [("B", Fval.base (Bval.intv 1)), ("A", Fval.base (Bval.str "x"))]
        = ContentAddress (fun b => 9 :: b) "pkg" "T"
          [("A", Fval.base (Bval.str "x")), ("B", Fval.base (Bval.intv 1))] :=
  ⟨by decide, by decide,
    contentAddress_field_order_independent (fun b => 9 :: b) "pkg" "T"
      [("B", Fval.base (Bval.intv 1)), ("A", Fval.base (Bval.str "x"))]
      [("A", Fval.base (Bval.str "x")), ("B", Fval.base (Bval.intv 1))]
      (by decide) (by decide)⟩

/-- The per-field emission (name followed by value bytes), with the name kept
alongside for sorting. -/
def fieldEmission (f : String × Fval) : String × List Nat :=
  (f.1, strBytes f.1 ++ encodeField f.2)

/-- The reflective emission factors through fieldEmission: sorting compares
names only, so it commutes with the name-preserving map. -/
theorem reflectiveContentAddress_factor (l : List (String × Fval)) :
    reflectiveContentAddress l
      = ((sortByName (l.map fieldEmission)).map Prod.snd).flatten := by
  unfold reflectiveContentAddress sortByName
  rw [← List.map_insertionSort nameLe nameLe fieldEmission l
    (fun a _ b _ => Iff.rfl), List.map_map]
  rfl

/-- C7: in reflective content-addressing a nil interface-typed field is
skipped (no value bytes are emitted for it), while a nil pointer-typed field
is hashed as the zero value of the pointed-to type: every payload whose
pointer field is nil hashes identically to the payload whose pointer field
points at a freshly zeroed value. -/
theorem nil_pointer_hashes_as_zero (sha1 : Bytes → Bytes)
    (pkg tyName : String) (pre post : List (String × Fval)) (n : String)
    (τ : Pty) :
    ContentAddress sha1 pkg tyName (pre ++ (n, Fval.ptrv τ none) :: post)
        = ContentAddress sha1 pkg tyName
          (pre ++ (n, Fval.ptrv τ (some (zeroP τ))) :: post) ∧
      encodeField (Fval.ifacev none) = [] := by
  refine ⟨?_, rfl⟩
  unfold ContentAddress
  rw [reflectiveContentAddress_factor, reflectiveContentAddress_factor]
  rw [List.map_append, List.map_append, List.map_cons, List.map_cons]
  rfl

/-! ## Relationship assertions (assert package)

Embedding of relationshipWriter.OneToOne for a GraphWriter that does not
implement the OneToOneAsserter specialisation.  The writer is abstracted as
the responses of its primitives; OneToOne is embedded as the ordered trace of
primitive calls it performs together with its outcome (normal return,
returned error, or panic with the newGraphIntegrityError value). -/

/-- The primitive graph-writer calls OneToOne can perform. -/
inductive WriterOp (V T : Type) where
  | retractEdges (node : V) (kind : T)
  | assertEdge (source target : V)
deriving DecidableEq

/-- A writer without a specialised asserter, abstracted as the responses of
its primitives: RetractEdges reports the number of removed edges or fails;
AssertEdge succeeds or fails. -/
structure WriterModel (V T E : Type) where
  retractEdges : V → T → Except E Nat
  assertEdge : V → V → Except E Unit

/-- The value newGraphIntegrityError builds: the relationship kind, the
direction of the violated check, and the number of affected edges. -/
structure GraphIntegrityError where
  relationship : String
  direction : String
  affectedEdges : Nat
deriving DecidableEq

/-- How a relationship assertion can finish: return normally, return an
error from a primitive, or panic with a graph-integrity error. -/
inductive WriterOutcome (E : Type) where
  | ok
  | errored (e : E)
  | panicked (err : GraphIntegrityError)
deriving DecidableEq

/-- Embedding of relationshipWriter.OneToOne (assert package): retract edges
from the source to nodes of the target's type (panicking when more than one
was removed), retract edges to the target from nodes of the source's type
(panicking when more than one was removed), then assert the source→target
edge.  Returns the ordered trace of primitive calls performed, and the
outcome. -/
def OneToOne {V T E : Type} (w : WriterModel V T E) (typeOf : V → T)
    (source target : V) : List (WriterOp V T) × WriterOutcome E :=
  match w.retractEdges source (typeOf target) with
  | .error e => ([.retractEdges source (typeOf target)], .errored e)
  | .ok edgesFrom =>
    if edgesFrom > 1 then
      ([.retractEdges source (typeOf target)],
        .panicked ⟨"one-to-one", "from source", edgesFrom⟩)
    else
      match w.retractEdges target (typeOf source) with
      | .error e =>
        ([.retractEdges source (typeOf target),
          .retractEdges target (typeOf source)], .errored e)
      | .ok edgesTo =>
        if edgesTo > 1 then
          ([.retractEdges source (typeOf target),
            .retractEdges target (typeOf source)],
            .panicked ⟨"one-to-one", "to target", edgesTo⟩)
        else
          match w.assertEdge source target with
          | .error e =>
            ([.retractEdges source (typeOf target),
              .retractEdges target (typeOf source),
              .assertEdge source target], .errored e)
          | .ok _ =>
            ([.retractEdges source (typeOf target),
              .retractEdges target (typeOf source),
              .assertEdge source target], .ok)

/-- C8: on a writer without a specialised asserter whose primitives succeed,
OneToOne(s, t) performs, in order, RetractEdges(s, type of t),
RetractEdges(t, type of s), AssertEdge(s, t); it returns normally when each
retraction removed at most one edge, and panics with an inconsistent-graph
(graph integrity) error exactly when either retraction reported more than one
removed edge. -/
theorem oneToOne_spec {V T E : Type} (w : WriterModel V T E) (typeOf : V → T)
    (s t : V) (nFrom nTo : Nat)
    (hFrom : w.retractEdges s (typeOf t) = .ok nFrom)
    (hTo : w.retractEdges t (typeOf s) = .ok nTo)
    (hAssert : w.assertEdge s t = .ok ()) :
    (nFrom ≤ 1 → nTo ≤ 1 →
      OneToOne w typeOf s t
        = ([.retractEdges s (typeOf t), .retractEdges t (typeOf s),
            .assertEdge s t], .ok)) ∧
      ((∃ ge : GraphIntegrityError, (OneToOne w typeOf s t).2 = .panicked ge ∧
          ge.relationship = "one-to-one")
        ↔ nFrom > 1 ∨ nTo > 1) := by
  unfold OneToOne
  rw [hFrom, hTo, hAssert]
  dsimp only
  by_cases h₁ : nFrom > 1
  · rw [if_pos h₁]
    refine ⟨fun hle _ => absurd h₁ (by omega), ?_, fun _ => ?_⟩
    · intro _
      exact Or.inl h₁
    · exact ⟨⟨"one-to-one", "from source", nFrom⟩, rfl, rfl⟩
  · rw [if_neg h₁]
    by_cases h₂ : nTo > 1
    · rw [if_pos h₂]
      refine ⟨fun _ hle => absurd h₂ (by omega), ?_, fun _ => ?_⟩
      · intro _
        exact Or.inr h₂
      · exact ⟨⟨"one-to-one", "to target", nTo⟩, rfl, rfl⟩
    · rw [if_neg h₂]
      refine ⟨fun _ _ => rfl, ?_, fun h => absurd h (by omega)⟩
      rintro ⟨ge, hge, -⟩
      exact absurd hge (by simp)

/-- A concrete writer whose retractions each report one removed edge. -/
def sampleWriter : WriterModel Nat Nat Nat :=
  { retractEdges := fun _ _ => .ok 1, assertEdge := fun _ _ => .ok () }

/-- Witness for C8: on the concrete writer, OneToOne(3, 4) performs the three
primitives in order and returns normally. -/
theorem oneToOne_spec_witness :
    sampleWriter.retractEdges 3 (id 4) = .ok 1 ∧
      OneToOne sampleWriter id 3 4
        = ([.retractEdges 3 (id 4), .retractEdges 4 (id 3),
            .assertEdge 3 4], .ok) :=
  ⟨rfl,
    (oneToOne_spec sampleWriter id 3 4 1 1 rfl rfl rfl).1
      (by decide) (by decide)⟩

/-! ## Builder immutability (AssemblyBuilder / Assemble)

The Go AssemblyBuilder mutates heap objects in place — its roots backing
array (Roots even trims and overwrites it in place when shrinking), its nodes
map, its neighbours map and the per-node neighbour sets — while Assemble
copies the accumulated state into freshly allocated objects.  Whether a later
builder mutation can corrupt a previously assembled Assembly is a question
about aliasing, so the heap is modelled explicitly: objects live in stores
addressed by allocation order (addresses are never reused), builder
operations write through the builder's addresses, and Assemble allocates
fresh ones.  Node payloads (Values) are immutable and kept inline. -/

/-- The mutable heap: one store per kind of object in play.  slices holds the
backing arrays of []NodeHash slices (the builder's roots array, the assembled
Root copy and the assembled Neighbours slices); vmaps holds
map[NodeHash]Value objects; nsets holds the builder's per-node
map[NodeHash]struct\x7b\x7d sets; nmapsS holds builder neighbours maps (node →
set address); nmapsL holds assembled Neighbours maps (node → slice address).
next is the allocation counter. -/
structure Heap (V : Type) where
  next : Nat
  slices : Nat → List NodeHash
  vmaps : Nat → List (NodeHash × V)
  nsets : Nat → List NodeHash
  nmapsS : Nat → List (NodeHash × Nat)
  nmapsL : Nat → List (NodeHash × Nat)

/-- Pointwise function update for a heap store. -/
def updF {α : Type} (f : Nat → α) (a : Nat) (v : α) : Nat → α :=
  fun x => if x = a then v else f x

@[simp] theorem updF_same {α : Type} (f : Nat → α) (a : Nat) (v : α) :
    updF f a v a = v := by
  simp [updF]

@[simp] theorem updF_other {α : Type} (f : Nat → α) (a x : Nat) (v : α)
    (h : x ≠ a) : updF f a v x = f x := by
  simp [updF, h]

/-- Bump the allocation counter (the effect of allocating one object). -/
def Heap.bump {V : Type} (h : Heap V) : Heap V :=
  { h with next := h.next + 1 }

def Heap.writeSlice {V : Type} (h : Heap V) (a : Nat) (xs : List NodeHash) :
    Heap V :=
  { h with slices := updF h.slices a xs }

def Heap.writeVmap {V : Type} (h : Heap V) (a : Nat)
    (m : List (NodeHash × V)) : Heap V :=
  { h with vmaps := updF h.vmaps a m }

def Heap.writeNset {V : Type} (h : Heap V) (a : Nat) (s : List NodeHash) :
    Heap V :=
  { h with nsets := updF h.nsets a s }

def Heap.writeNmapS {V : Type} (h : Heap V) (a : Nat)
    (m : List (NodeHash × Nat)) : Heap V :=
  { h with nmapsS := updF h.nmapsS a m }

def Heap.writeNmapL {V : Type} (h : Heap V) (a : Nat)
    (m : List (NodeHash × Nat)) : Heap V :=
  { h with nmapsL := updF h.nmapsL a m }

@[simp] theorem Heap.next_bump {V : Type} (h : Heap V) :
    h.bump.next = h.next + 1 := rfl
@[simp] theorem Heap.slices_bump {V : Type} (h : Heap V) :
    h.bump.slices = h.slices := rfl
@[simp] theorem Heap.vmaps_bump {V : Type} (h : Heap V) :
    h.bump.vmaps = h.vmaps := rfl
@[simp] theorem Heap.nsets_bump {V : Type} (h : Heap V) :
    h.bump.nsets = h.nsets := rfl
@[simp] theorem Heap.nmapsS_bump {V : Type} (h : Heap V) :
    h.bump.nmapsS = h.nmapsS := rfl
@[simp] theorem Heap.nmapsL_bump {V : Type} (h : Heap V) :
    h.bump.nmapsL = h.nmapsL := rfl

@[simp] theorem Heap.next_writeSlice {V : Type} (h : Heap V) (a : Nat)
    (xs : List NodeHash) : (h.writeSlice a xs).next = h.next := rfl
@[simp] theorem Heap.slices_writeSlice {V : Type} (h : Heap V) (a : Nat)
    (xs : List NodeHash) : (h.writeSlice a xs).slices = updF h.slices a xs :=
  rfl
@[simp] theorem Heap.vmaps_writeSlice {V : Type} (h : Heap V) (a : Nat)
    (xs : List NodeHash) : (h.writeSlice a xs).vmaps = h.vmaps := rfl
@[simp] theorem Heap.nsets_writeSlice {V : Type} (h : Heap V) (a : Nat)
    (xs : List NodeHash) : (h.writeSlice a xs).nsets = h.nsets := rfl
@[simp] theorem Heap.nmapsS_writeSlice {V : Type} (h : Heap V) (a : Nat)
    (xs : List NodeHash) : (h.writeSlice a xs).nmapsS = h.nmapsS := rfl
@[simp] theorem Heap.nmapsL_writeSlice {V : Type} (h : Heap V) (a : Nat)
    (xs : List NodeHash) : (h.writeSlice a xs).nmapsL = h.nmapsL := rfl

@[simp] theorem Heap.next_writeVmap {V : Type} (h : Heap V) (a : Nat)
    (m : List (NodeHash × V)) : (h.writeVmap a m).next = h.next := rfl
@[simp] theorem Heap.slices_writeVmap {V : Type} (h : Heap V) (a : Nat)
    (m : List (NodeHash × V)) : (h.writeVmap a m).slices = h.slices := rfl
@[simp] theorem Heap.vmaps_writeVmap {V : Type} (h : Heap V) (a : Nat)
    (m : List (NodeHash × V)) : (h.writeVmap a m).vmaps = updF h.vmaps a m :=
  rfl
@[simp] theorem Heap.nsets_writeVmap {V : Type} (h : Heap V) (a : Nat)
    (m : List (NodeHash × V)) : (h.writeVmap a m).nsets = h.nsets := rfl
@[simp] theorem Heap.nmapsS_writeVmap {V : Type} (h : Heap V) (a : Nat)
    (m : List (NodeHash × V)) : (h.writeVmap a m).nmapsS = h.nmapsS := rfl
@[simp] theorem Heap.nmapsL_writeVmap {V : Type} (h : Heap V) (a : Nat)
    (m : List (NodeHash × V)) : (h.writeVmap a m).nmapsL = h.nmapsL := rfl

@[simp] theorem Heap.next_writeNset {V : Type} (h : Heap V) (a : Nat)
    (s : List NodeHash) : (h.writeNset a s).next = h.next := rfl
@[simp] theorem Heap.slices_writeNset {V : Type} (h : Heap V) (a : Nat)
    (s : List NodeHash) : (h.writeNset a s).slices = h.slices := rfl
@[simp] theorem Heap.vmaps_writeNset {V : Type} (h : Heap V) (a : Nat)
    (s : List NodeHash) : (h.writeNset a s).vmaps = h.vmaps := rfl
@[simp] theorem Heap.nsets_writeNset {V : Type} (h : Heap V) (a : Nat)
    (s : List NodeHash) : (h.writeNset a s).nsets = updF h.nsets a s := rfl
@[simp] theorem Heap.nmapsS_writeNset {V : Type} (h : Heap V) (a : Nat)
    (s : List NodeHash) : (h.writeNset a s).nmapsS = h.nmapsS := rfl
@[simp] theorem Heap.nmapsL_writeNset {V : Type} (h : Heap V) (a : Nat)
    (s : List NodeHash) : (h.writeNset a s).nmapsL = h.nmapsL := rfl

@[simp] theorem Heap.next_writeNmapS {V : Type} (h : Heap V) (a : Nat)
    (m : List (NodeHash × Nat)) : (h.writeNmapS a m).next = h.next := rfl
@[simp] theorem Heap.slices_writeNmapS {V : Type} (h : Heap V) (a : Nat)
    (m : List (NodeHash × Nat)) : (h.writeNmapS a m).slices = h.slices := rfl
@[simp] theorem Heap.vmaps_writeNmapS {V : Type} (h : Heap V) (a : Nat)
    (m : List (NodeHash × Nat)) : (h.writeNmapS a m).vmaps = h.vmaps := rfl
@[simp] theorem Heap.nsets_writeNmapS {V : Type} (h : Heap V) (a : Nat)
    (m : List (NodeHash × Nat)) : (h.writeNmapS a m).nsets = h.nsets := rfl
@[simp] theorem Heap.nmapsS_writeNmapS {V : Type} (h : Heap V) (a : Nat)
    (m : List (NodeHash × Nat)) : (h.writeNmapS a m).nmapsS
      = updF h.nmapsS a m := rfl
@[simp] theorem Heap.nmapsL_writeNmapS {V : Type} (h : Heap V) (a : Nat)
    (m : List (NodeHash × Nat)) : (h.writeNmapS a m).nmapsL = h.nmapsL := rfl

@[simp] theorem Heap.next_writeNmapL {V : Type} (h : Heap V) (a : Nat)
    (m : List (NodeHash × Nat)) : (h.writeNmapL a m).next = h.next := rfl
@[simp] theorem Heap.slices_writeNmapL {V : Type} (h : Heap V) (a : Nat)
    (m : List (NodeHash × Nat)) : (h.writeNmapL a m).slices = h.slices := rfl
@[simp] theorem Heap.vmaps_writeNmapL {V : Type} (h : Heap V) (a : Nat)
    (m : List (NodeHash × Nat)) : (h.writeNmapL a m).vmaps = h.vmaps := rfl
@[simp] theorem Heap.nsets_writeNmapL {V : Type} (h : Heap V) (a : Nat)
    (m : List (NodeHash × Nat)) : (h.writeNmapL a m).nsets = h.nsets := rfl
@[simp] theorem Heap.nmapsS_writeNmapL {V : Type} (h : Heap V) (a : Nat)
    (m : List (NodeHash × Nat)) : (h.writeNmapL a m).nmapsS = h.nmapsS := rfl
@[simp] theorem Heap.nmapsL_writeNmapL {V : Type} (h : Heap V) (a : Nat)
    (m : List (NodeHash × Nat)) : (h.writeNmapL a m).nmapsL
      = updF h.nmapsL a m := rfl

/-- The AssemblyBuilder struct: references into the heap.  none models a nil
slice or nil map; rootsLen is the length of the roots slice header (the
backing array at rootsArr may be longer after an in-place trim). -/
structure Builder where
  rootsArr : Option Nat
  rootsLen : Nat
  nodes : Option Nat
  neighbours : Option Nat

/-- The zero-value builder. -/
def Builder.empty : Builder :=
  { rootsArr := none, rootsLen := 0, nodes := none, neighbours := none }

/-- Embedding of AssemblyBuilder.Nodes: allocate the nodes map when nil, then
store each value under its content address (MustContentAddress is the
abstract cav). -/
def bNodes {V : Type} (cav : V → NodeHash) (vs : List V) (b : Builder)
    (h : Heap V) : Builder × Heap V :=
  match b.nodes with
  | some a =>
    (b, h.writeVmap a (vs.foldl (fun m v => insertA m (cav v) v) (h.vmaps a)))
  | none =>
    let a := h.next
    ({ b with nodes := some a },
      h.bump.writeVmap a (vs.foldl (fun m v => insertA m (cav v) v) []))

/-- Embedding of AssemblyBuilder.Connect: add both nodes, allocate the
neighbours map when nil, allocate the source's neighbour set when absent, and
add the target's hash to that set. -/
def bConnect {V : Type} (cav : V → NodeHash) (s t : V) (b : Builder)
    (h : Heap V) : Builder × Heap V :=
  let step1 := bNodes cav [s, t] b h
  let src := cav s
  let tgt := cav t
  let step2 : Builder × Heap V × Nat :=
    match step1.1.neighbours with
    | some ma => (step1.1, step1.2, ma)
    | none =>
      let ma := step1.2.next
      ({ step1.1 with neighbours := some ma },
        step1.2.bump.writeNmapS ma [], ma)
  let step3 : Heap V × Nat :=
    match lookupA (step2.2.1.nmapsS step2.2.2) src with
    | some sa => (step2.2.1, sa)
    | none =>
      let sa := step2.2.1.next
      ((step2.2.1.bump.writeNset sa []).writeNmapS step2.2.2
        (insertA (step2.2.1.nmapsS step2.2.2) src sa), sa)
  (step2.1, step3.1.writeNset step3.2
    (if tgt ∈ step3.1.nsets step3.2 then step3.1.nsets step3.2
      else step3.1.nsets step3.2 ++ [tgt]))

/-- Embedding of AssemblyBuilder.Roots: add the nodes; when the current roots
slice is strictly longer than the new root list, trim the slice header and
overwrite the prefix of the same backing array in place, otherwise allocate a
fresh backing array; then store the content addresses of the new roots. -/
def bRoots {V : Type} (cav : V → NodeHash) (vs : List V) (b : Builder)
    (h : Heap V) : Builder × Heap V :=
  let step1 := bNodes cav vs b h
  if vs.length < step1.1.rootsLen then
    match step1.1.rootsArr with
    | some a =>
      ({ step1.1 with rootsLen := vs.length },
        step1.2.writeSlice a
          (vs.map cav ++ (step1.2.slices a).drop vs.length))
    | none => (step1.1, step1.2)
  else
    let a := step1.2.next
    ({ step1.1 with rootsArr := some a, rootsLen := vs.length },
      step1.2.bump.writeSlice a (vs.map cav))

/-- Embedding of AssemblyBuilder.Reset: drop every reference. -/
def bReset {V : Type} (_ : Builder) (h : Heap V) : Builder × Heap V :=
  (Builder.empty, h)

/-- The builder mutations named by the builder's API. -/
inductive BOp (V : Type) where
  | nodes (vs : List V)
  | connect (s t : V)
  | roots (vs : List V)
  | reset

/-- Run one builder mutation. -/
def bApply {V : Type} (cav : V → NodeHash) (st : Builder × Heap V)
    (op : BOp V) : Builder × Heap V :=
  match op with
  | .nodes vs => bNodes cav vs st.1 st.2
  | .connect s t => bConnect cav s t st.1 st.2
  | .roots vs => bRoots cav vs st.1 st.2
  | .reset => bReset st.1 st.2

/-- Run a sequence of builder mutations. -/
def bApplyAll {V : Type} (cav : V → NodeHash) (ops : List (BOp V))
    (st : Builder × Heap V) : Builder × Heap V :=
  ops.foldl (bApply cav) st

/-- The references an assembled AssemblyGraph holds: its Root slice, its
Vertices map and its Neighbours map (whose entries point at slices). -/
structure AsmRefs where
  root : Option Nat
  verts : Option Nat
  neigh : Option Nat

/-- One step of Assemble's Neighbours copy: allocate a fresh slice holding
the builder's neighbour set for this node (Go map keys are unique, so
assignment to the freshly made map appends an entry). -/
def copyNeighEntry {V : Type} (a : Nat) (h : Heap V) (e : NodeHash × Nat) :
    Heap V :=
  let sa := h.next
  (h.bump.writeSlice sa (h.nsets e.2)).writeNmapL a
    (h.nmapsL a ++ [(e.1, sa)])

/-- Assemble's Neighbours copy loop over the builder's neighbours entries. -/
def copyNeighbours {V : Type} (a : Nat) (entries : List (NodeHash × Nat))
    (h : Heap V) : Heap V :=
  entries.foldl (copyNeighEntry a) h

/-- The roots the builder currently holds (the slice view of its backing
array). -/
def readRoots {V : Type} (b : Builder) (h : Heap V) : List NodeHash :=
  match b.rootsArr with
  | some a => (h.slices a).take b.rootsLen
  | none => []

/-- Assemble's first block: when the builder's root list is non-empty, copy
it into a freshly allocated backing array. -/
def assembleRoots {V : Type} (b : Builder) (h : Heap V) :
    Option Nat × Heap V :=
  if b.rootsLen ≠ 0 then
    let a := h.next
    (some a, h.bump.writeSlice a (readRoots b h))
  else (none, h)

/-- Assemble's second block: when the builder's nodes map is non-empty, copy
its entries into a freshly allocated map. -/
def assembleVerts {V : Type} (b : Builder) (h : Heap V) :
    Option Nat × Heap V :=
  match b.nodes with
  | some na =>
    if (h.vmaps na).length ≠ 0 then
      let a := h.next
      (some a, h.bump.writeVmap a (h.vmaps na))
    else (none, h)
  | none => (none, h)

/-- Assemble's third block: when the builder's neighbours map is non-empty,
allocate a fresh map and, for each of its entries, a fresh slice holding the
entry's neighbour set. -/
def assembleNeigh {V : Type} (b : Builder) (h : Heap V) :
    Option Nat × Heap V :=
  match b.neighbours with
  | some ma =>
    if (h.nmapsS ma).length ≠ 0 then
      let a := h.next
      (some a, copyNeighbours a (h.nmapsS ma) (h.bump.writeNmapL a []))
    else (none, h)
  | none => (none, h)

/-- Embedding of AssemblyBuilder.Assemble: copy the roots slice, the nodes
map and the neighbours map into freshly allocated objects (each only when
non-empty).  The builder itself is not modified. -/
def bAssemble {V : Type} (b : Builder) (h : Heap V) : AsmRefs × Heap V :=
  let rootStep := assembleRoots b h
  let vertStep := assembleVerts b rootStep.2
  let neighStep := assembleNeigh b vertStep.2
  ({ root := rootStep.1, verts := vertStep.1, neigh := neighStep.1 },
    neighStep.2)

/-- Reading an assembled AssemblyGraph back from the heap: its Roots, its
Nodes and its full adjacency (EdgesOf for every key of Neighbours). -/
def readAssembly {V : Type} (h : Heap V) (g : AsmRefs) :
    List NodeHash × List (NodeHash × V) × List (NodeHash × List NodeHash) :=
  (match g.root with
    | some a => h.slices a
    | none => [],
   match g.verts with
    | some a => h.vmaps a
    | none => [],
   match g.neigh with
    | some a => (h.nmapsL a).map fun p => (p.1, h.slices p.2)
    | none => [])

/-- The slice addresses an assembled graph reads through, as recorded in the
post-Assemble heap h₁. -/
def asmSliceAddrs {V : Type} (g : AsmRefs) (h₁ : Heap V) : List Nat :=
  g.root.toList ++
    (match g.neigh with
      | some a => (h₁.nmapsL a).map Prod.snd
      | none => [])

/-- Well-formedness of a builder against a heap: every address it holds was
previously allocated. -/
def BuilderWF {V : Type} (b : Builder) (h : Heap V) : Prop :=
  (∀ a, b.rootsArr = some a → a < h.next) ∧
    (∀ a, b.nodes = some a → a < h.next) ∧
    (∀ a, b.neighbours = some a → a < h.next)

theorem copyNeighEntry_next {V : Type} (a : Nat) (h : Heap V)
    (e : NodeHash × Nat) : (copyNeighEntry a h e).next = h.next + 1 :=
  rfl

theorem copyNeighbours_next_mono {V : Type} (a : Nat)
    (entries : List (NodeHash × Nat)) :
    ∀ h : Heap V, h.next ≤ (copyNeighbours a entries h).next := by
  induction entries with
  | nil => intro h; exact le_refl _
  | cons e rest ih =>
    intro h
    calc h.next ≤ (copyNeighEntry a h e).next := by
          rw [copyNeighEntry_next]; omega
      _ ≤ _ := ih (copyNeighEntry a h e)

/-- Every slice address recorded in the neighbours map built by
copyNeighbours lies in the allocated range. -/
theorem copyNeighbours_bounds {V : Type} (a : Nat) (lo : Nat)
    (entries : List (NodeHash × Nat)) :
    ∀ h : Heap V, lo ≤ h.next →
      (∀ p ∈ h.nmapsL a, lo ≤ p.2 ∧ p.2 < h.next) →
      ∀ p ∈ (copyNeighbours a entries h).nmapsL a,
        lo ≤ p.2 ∧ p.2 < (copyNeighbours a entries h).next := by
  induction entries with
  | nil => intro h _ hinv; exact hinv
  | cons e rest ih =>
    intro h hlo hinv
    refine ih (copyNeighEntry a h e) (by rw [copyNeighEntry_next]; omega) ?_
    intro p hp
    have hp' : p ∈ h.nmapsL a ++ [(e.1, h.next)] := by
      simpa [copyNeighEntry, Heap.writeNmapL, Heap.writeSlice, Heap.bump]
        using hp
    rw [copyNeighEntry_next]
    rcases List.mem_append.mp hp' with hmem | hmem
    · have := hinv p hmem
      omega
    · rcases List.mem_singleton.mp hmem with rfl
      exact ⟨hlo, by omega⟩

theorem assembleRoots_next {V : Type} (b : Builder) (h : Heap V) :
    h.next ≤ (assembleRoots b h).2.next := by
  unfold assembleRoots
  split
  · simp [Heap.writeSlice, Heap.bump]
  · exact le_refl _

theorem assembleVerts_next {V : Type} (b : Builder) (h : Heap V) :
    h.next ≤ (assembleVerts b h).2.next := by
  unfold assembleVerts
  rcases b.nodes with - | na
  · exact le_refl _
  · dsimp only
    split
    · simp [Heap.writeVmap, Heap.bump]
    · exact le_refl _

theorem assembleNeigh_next {V : Type} (b : Builder) (h : Heap V) :
    h.next ≤ (assembleNeigh b h).2.next := by
  unfold assembleNeigh
  rcases b.neighbours with - | ma
  · exact le_refl _
  · dsimp only
    split
    · show h.next ≤ (copyNeighbours h.next (h.nmapsS ma)
        (h.bump.writeNmapL h.next [])).next
      refine le_trans (Nat.le_succ h.next) ?_
      have hm := copyNeighbours_next_mono h.next (h.nmapsS ma)
        (h.bump.writeNmapL h.next [])
      simpa [Heap.writeNmapL, Heap.bump] using hm
    · exact le_refl _

theorem assembleRoots_addr {V : Type} (b : Builder) (h : Heap V) :
    ∀ a, (assembleRoots b h).1 = some a →
      a = h.next ∧ a < (assembleRoots b h).2.next := by
  unfold assembleRoots
  split
  · intro a ha
    cases ha
    simp [Heap.writeSlice, Heap.bump]
  · intro a ha
    exact Option.noConfusion ha

theorem assembleVerts_addr {V : Type} (b : Builder) (h : Heap V) :
    ∀ a, (assembleVerts b h).1 = some a →
      a = h.next ∧ a < (assembleVerts b h).2.next := by
  unfold assembleVerts
  rcases b.nodes with - | na
  · intro a ha
    exact Option.noConfusion ha
  · dsimp only
    split
    · intro a ha
      cases ha
      simp [Heap.writeVmap, Heap.bump]
    · intro a ha
      exact Option.noConfusion ha

theorem assembleNeigh_addr {V : Type} (b : Builder) (h : Heap V) :
    ∀ a, (assembleNeigh b h).1 = some a →
      a = h.next ∧ a < (assembleNeigh b h).2.next ∧
        ∀ p ∈ (assembleNeigh b h).2.nmapsL a,
          h.next ≤ p.2 ∧ p.2 < (assembleNeigh b h).2.next := by
  unfold assembleNeigh
  rcases b.neighbours with - | ma
  · intro a ha
    exact Option.noConfusion ha
  · dsimp only
    split
    · intro a ha
      cases ha
      have hm := copyNeighbours_next_mono h.next (h.nmapsS ma)
        (h.bump.writeNmapL h.next [])
      have hm' : h.next + 1 ≤ (copyNeighbours h.next (h.nmapsS ma)
          (h.bump.writeNmapL h.next [])).next := by
        simpa [Heap.writeNmapL, Heap.bump] using hm
      refine ⟨rfl, ?_, ?_⟩
      · show h.next < (copyNeighbours h.next (h.nmapsS ma)
          (h.bump.writeNmapL h.next [])).next
        omega
      · show ∀ p ∈ (copyNeighbours h.next (h.nmapsS ma)
            (h.bump.writeNmapL h.next [])).nmapsL h.next, _ ∧ _
        refine copyNeighbours_bounds h.next h.next _ _ ?_ ?_
        · show h.next ≤ h.next + 1
          omega
        · intro p hp
          simp only [Heap.writeNmapL, Heap.bump, updF_same] at hp
          exact absurd hp (List.not_mem_nil p)
    · intro a ha
      exact Option.noConfusion ha

/-- Framing of bNodes: it writes only the builder's nodes map (or a freshly
allocated one), leaving every other store untouched; the builder's other
references are unchanged, and its nodes reference is either unchanged or
fresh. -/
theorem bNodes_frame {V : Type} (cav : V → NodeHash) (vs : List V)
    (b : Builder) (h : Heap V) :
    h.next ≤ (bNodes cav vs b h).2.next ∧
      (bNodes cav vs b h).2.slices = h.slices ∧
      (∀ x, (∀ na, b.nodes = some na → x ≠ na) → x < h.next →
        (bNodes cav vs b h).2.vmaps x = h.vmaps x) ∧
      (bNodes cav vs b h).2.nmapsL = h.nmapsL ∧
      (bNodes cav vs b h).2.nsets = h.nsets ∧
      (bNodes cav vs b h).2.nmapsS = h.nmapsS ∧
      (bNodes cav vs b h).1.rootsArr = b.rootsArr ∧
      (bNodes cav vs b h).1.rootsLen = b.rootsLen ∧
      (bNodes cav vs b h).1.neighbours = b.neighbours ∧
      (∀ na, (bNodes cav vs b h).1.nodes = some na →
        b.nodes = some na ∨ h.next ≤ na) := by
  rcases hn : b.nodes with - | na
  · simp only [bNodes, hn]
    refine ⟨Nat.le_succ _, rfl, ?_, rfl, rfl, rfl, trivial, trivial,
      trivial, ?_⟩
    · intro x hx hlt
      have : x ≠ h.next := by omega
      simp [Heap.writeVmap, Heap.bump, this]
    · intro na hna
      cases hna
      exact Or.inr (le_refl _)
  · simp only [bNodes, hn]
    refine ⟨le_refl _, rfl, ?_, rfl, rfl, rfl, trivial, trivial,
      trivial, ?_⟩
    · intro x hx _
      have : x ≠ na := hx na rfl
      simp [Heap.writeVmap, this]
    · intro na' hna'
      exact Or.inl hna'

/-- Framing of bConnect: beyond bNodes it writes only the neighbours map and
neighbour sets (allocating fresh ones as needed), so slices, vmaps (away from
the nodes map) and assembled neighbour maps are untouched; the builder's
roots and nodes references change as in bNodes. -/
theorem bConnect_frame {V : Type} (cav : V → NodeHash) (s t : V)
    (b : Builder) (h : Heap V) :
    h.next ≤ (bConnect cav s t b h).2.next ∧
      (bConnect cav s t b h).2.slices = h.slices ∧
      (∀ x, (∀ na, b.nodes = some na → x ≠ na) → x < h.next →
        (bConnect cav s t b h).2.vmaps x = h.vmaps x) ∧
      (bConnect cav s t b h).2.nmapsL = h.nmapsL ∧
      (bConnect cav s t b h).1.rootsArr = b.rootsArr ∧
      (bConnect cav s t b h).1.rootsLen = b.rootsLen ∧
      (∀ na, (bConnect cav s t b h).1.nodes = some na →
        b.nodes = some na ∨ h.next ≤ na) := by
  obtain ⟨hnext, hsl, hvm, hnl, hns, hnS, hra, hrl, hnb, hnd⟩ :=
    bNodes_frame cav [s, t] b h
  simp only [bConnect]
  rcases hmb : (bNodes cav [s, t] b h).1.neighbours with - | ma
  · dsimp only
    simp only [Heap.nmapsS_writeNmapS, Heap.nmapsS_bump, updF_same,
      lookupA_nil]
    refine ⟨by simp; omega, by simp [hsl], ?_, by simp [hnl],
      by simpa using hra, by simpa using hrl, ?_⟩
    · intro x hx hlt
      simpa using hvm x hx hlt
    · intro na hna
      exact hnd na hna
  · dsimp only
    rcases hl : lookupA ((bNodes cav [s, t] b h).2.nmapsS ma) (cav s)
      with - | sa
    · dsimp only
      refine ⟨by simp; omega, by simp [hsl], ?_, by simp [hnl],
        by simpa using hra, by simpa using hrl, ?_⟩
      · intro x hx hlt
        simpa using hvm x hx hlt
      · intro na hna
        exact hnd na hna
    · dsimp only
      refine ⟨by simp [hnext], by simp [hsl], ?_, by simp [hnl],
        by simpa using hra, by simpa using hrl, ?_⟩
      · intro x hx hlt
        simpa using hvm x hx hlt
      · intro na hna
        exact hnd na hna

/-- Framing of bRoots: beyond bNodes it writes only the builder's roots
backing array (in place when trimming) or a freshly allocated one; every
other slice, the assembled maps, and the other stores are untouched. -/
theorem bRoots_frame {V : Type} (cav : V → NodeHash) (vs : List V)
    (b : Builder) (h : Heap V) :
    h.next ≤ (bRoots cav vs b h).2.next ∧
      (∀ x, (∀ ra, b.rootsArr = some ra → x ≠ ra) → x < h.next →
        (bRoots cav vs b h).2.slices x = h.slices x) ∧
      (∀ x, (∀ na, b.nodes = some na → x ≠ na) → x < h.next →
        (bRoots cav vs b h).2.vmaps x = h.vmaps x) ∧
      (bRoots cav vs b h).2.nmapsL = h.nmapsL ∧
      (∀ ra, (bRoots cav vs b h).1.rootsArr = some ra →
        b.rootsArr = some ra ∨ h.next ≤ ra) ∧
      (∀ na, (bRoots cav vs b h).1.nodes = some na →
        b.nodes = some na ∨ h.next ≤ na) := by
  obtain ⟨hnext, hsl, hvm, hnl, hns, hnS, hra, hrl, hnb, hnd⟩ :=
    bNodes_frame cav vs b h
  simp only [bRoots]
  by_cases hlen : vs.length < (bNodes cav vs b h).1.rootsLen
  · rw [if_pos hlen]
    rcases hroots : (bNodes cav vs b h).1.rootsArr with - | ra
    · dsimp only
      refine ⟨hnext, ?_, ?_, hnl, ?_, hnd⟩
      · intro x _ _
        rw [hsl]
      · intro x hx hlt
        exact hvm x hx hlt
      · intro ra hra'
        rw [hroots] at hra'
        exact Option.noConfusion hra'
    · dsimp only
      have hba : b.rootsArr = some ra := hra ▸ hroots
      refine ⟨hnext, ?_, ?_, by simp [hnl], ?_, hnd⟩
      · intro x hx hlt
        have : x ≠ ra := hx ra hba
        simp [this, hsl]
      · intro x hx hlt
        exact hvm x hx hlt
      · intro ra' hra'
        cases hra'
        exact Or.inl hba
  · rw [if_neg hlen]
    dsimp only
    refine ⟨by simpa using hnext.trans (Nat.le_succ _), ?_, ?_,
      by simp [hnl], ?_, hnd⟩
    · intro x _ hlt
      have : x ≠ (bNodes cav vs b h).2.next := by omega
      simp [this, hsl]
    · intro x hx hlt
      exact hvm x hx hlt
    · intro ra hra'
      cases hra'
      exact Or.inr hnext

/-- Framing of a single builder mutation: it never writes any store an
assembled graph reads, other than the builder's own roots array and nodes
map; the builder's references afterwards are either unchanged or freshly
allocated. -/
theorem bApply_frame {V : Type} (cav : V → NodeHash) (op : BOp V)
    (b : Builder) (h : Heap V) :
    h.next ≤ (bApply cav (b, h) op).2.next ∧
      (∀ x, (∀ ra, b.rootsArr = some ra → x ≠ ra) → x < h.next →
        (bApply cav (b, h) op).2.slices x = h.slices x) ∧
      (∀ x, (∀ na, b.nodes = some na → x ≠ na) → x < h.next →
        (bApply cav (b, h) op).2.vmaps x = h.vmaps x) ∧
      (bApply cav (b, h) op).2.nmapsL = h.nmapsL ∧
      (∀ ra, (bApply cav (b, h) op).1.rootsArr = some ra →
        b.rootsArr = some ra ∨ h.next ≤ ra) ∧
      (∀ na, (bApply cav (b, h) op).1.nodes = some na →
        b.nodes = some na ∨ h.next ≤ na) := by
  cases op with
  | nodes vs =>
    dsimp only [bApply]
    obtain ⟨hnext, hsl, hvm, hnl, -, -, hra, -, -, hnd⟩ :=
      bNodes_frame cav vs b h
    exact ⟨hnext, fun x _ _ => by rw [hsl], hvm, hnl,
      fun ra h' => Or.inl ((hra ▸ h' : b.rootsArr = some ra)), hnd⟩
  | connect s t =>
    dsimp only [bApply]
    obtain ⟨hnext, hsl, hvm, hnl, hra, -, hnd⟩ := bConnect_frame cav s t b h
    exact ⟨hnext, fun x _ _ => by rw [hsl], hvm, hnl,
      fun ra h' => Or.inl ((hra ▸ h' : b.rootsArr = some ra)), hnd⟩
  | roots vs =>
    dsimp only [bApply]
    obtain ⟨hnext, hsl, hvm, hnl, hra, hnd⟩ := bRoots_frame cav vs b h
    exact ⟨hnext, hsl, hvm, hnl, hra, hnd⟩
  | reset =>
    refine ⟨le_refl _, fun x _ _ => rfl, fun x _ _ => rfl, rfl, ?_, ?_⟩
    · intro ra h'
      exact Option.noConfusion h'
    · intro na h'
      exact Option.noConfusion h'

theorem root_mem_asmSliceAddrs {V : Type} (g : AsmRefs) (h₁ : Heap V)
    (a : Nat) (h : g.root = some a) : a ∈ asmSliceAddrs g h₁ := by
  simp [asmSliceAddrs, h]

theorem nmapsL_mem_asmSliceAddrs {V : Type} (g : AsmRefs) (h₁ : Heap V)
    (na : Nat) (p : NodeHash × Nat) (h : g.neigh = some na)
    (hp : p ∈ h₁.nmapsL na) : p.2 ∈ asmSliceAddrs g h₁ := by
  simp only [asmSliceAddrs, h]
  exact List.mem_append_right _ (List.mem_map_of_mem Prod.snd hp)

/-- The invariant maintained by builder mutations over an assembled graph g
(captured at the post-Assemble heap h₁): the allocation counter never goes
back, the stores the graph reads are unchanged at its addresses, and the
builder's own writable references avoid those addresses. -/
def FrameInv {V : Type} (g : AsmRefs) (h₁ : Heap V)
    (st : Builder × Heap V) : Prop :=
  h₁.next ≤ st.2.next ∧
    (∀ x ∈ asmSliceAddrs g h₁, st.2.slices x = h₁.slices x) ∧
    (∀ x, g.verts = some x → st.2.vmaps x = h₁.vmaps x) ∧
    (∀ x, g.neigh = some x → st.2.nmapsL x = h₁.nmapsL x) ∧
    (∀ ra, st.1.rootsArr = some ra → ra ∉ asmSliceAddrs g h₁) ∧
    (∀ na, st.1.nodes = some na → g.verts ≠ some na)

/-- The assembled graph's addresses all lie below the post-Assemble
allocation counter. -/
def AsmBelow {V : Type} (g : AsmRefs) (h₁ : Heap V) : Prop :=
  (∀ x ∈ asmSliceAddrs g h₁, x < h₁.next) ∧
    (∀ x, g.verts = some x → x < h₁.next)

/-- One builder mutation preserves the frame invariant. -/
theorem frameInv_step {V : Type} (cav : V → NodeHash) (g : AsmRefs)
    (h₁ : Heap V) (hb : AsmBelow g h₁) (st : Builder × Heap V)
    (hinv : FrameInv g h₁ st) (op : BOp V) :
    FrameInv g h₁ (bApply cav st op) := by
  obtain ⟨hnext, hsl, hvm, hnl, hroots, hnodes⟩ := hinv
  obtain ⟨fnext, fsl, fvm, fnl, froots, fnodes⟩ :=
    bApply_frame cav op st.1 st.2
  refine ⟨hnext.trans fnext, ?_, ?_, ?_, ?_, ?_⟩
  · intro x hx
    have hx1 : x < st.2.next := lt_of_lt_of_le (hb.1 x hx) hnext
    have hx2 : ∀ ra, st.1.rootsArr = some ra → x ≠ ra := by
      intro ra hra
      intro hcontra
      exact hroots ra hra (hcontra ▸ hx)
    rw [fsl x hx2 hx1, hsl x hx]
  · intro x hx
    have hx1 : x < st.2.next := lt_of_lt_of_le (hb.2 x hx) hnext
    have hx2 : ∀ na, st.1.nodes = some na → x ≠ na := by
      intro na hna
      intro hcontra
      exact hnodes na hna (hcontra ▸ hx)
    rw [fvm x hx2 hx1, hvm x hx]
  · intro x hx
    rw [fnl, hnl x hx]
  · intro ra hra
    rcases froots ra hra with hold | hfresh
    · exact hroots ra hold
    · intro hmem
      have := hb.1 ra hmem
      omega
  · intro na hna
    rcases fnodes na hna with hold | hfresh
    · exact hnodes na hold
    · intro hverts
      have := hb.2 na hverts
      omega

/-- Any sequence of builder mutations preserves the frame invariant. -/
theorem frameInv_all {V : Type} (cav : V → NodeHash) (g : AsmRefs)
    (h₁ : Heap V) (hb : AsmBelow g h₁) (ops : List (BOp V)) :
    ∀ st : Builder × Heap V, FrameInv g h₁ st →
      FrameInv g h₁ (bApplyAll cav ops st) := by
  induction ops with
  | nil => intro st hinv; exact hinv
  | cons op rest ih =>
    intro st hinv
    exact ih (bApply cav st op) (frameInv_step cav g h₁ hb st hinv op)

/-- Under the frame invariant, the assembled graph reads back exactly as at
Assemble time. -/
theorem readAssembly_eq_of_frameInv {V : Type} (g : AsmRefs) (h₁ : Heap V)
    (st : Builder × Heap V) (hinv : FrameInv g h₁ st) :
    readAssembly st.2 g = readAssembly h₁ g := by
  obtain ⟨-, hsl, hvm, hnl, -, -⟩ := hinv
  unfold readAssembly
  refine congrArg₂ Prod.mk ?_ (congrArg₂ Prod.mk ?_ ?_)
  · rcases hroot : g.root with - | a
    · rfl
    · exact hsl a (root_mem_asmSliceAddrs g h₁ a hroot)
  · rcases hverts : g.verts with - | a
    · rfl
    · exact hvm a hverts
  · rcases hneigh : g.neigh with - | a
    · rfl
    · dsimp only
      rw [hnl a hneigh]
      refine List.map_congr_left ?_
      intro p hp
      rw [hsl p.2 (nmapsL_mem_asmSliceAddrs g h₁ a p hneigh hp)]

/-- Everything Assemble allocates for the returned graph lies in the address
range it allocated: at or above the pre-Assemble counter and below the
post-Assemble counter. -/
theorem bAssemble_bounds {V : Type} (b : Builder) (h₀ : Heap V) :
    (∀ x ∈ asmSliceAddrs (bAssemble b h₀).1 (bAssemble b h₀).2,
      h₀.next ≤ x ∧ x < (bAssemble b h₀).2.next) ∧
      (∀ x, (bAssemble b h₀).1.verts = some x →
        h₀.next ≤ x ∧ x < (bAssemble b h₀).2.next) := by
  have m1 := assembleRoots_next b h₀
  have m2 := assembleVerts_next b (assembleRoots b h₀).2
  have m3 := assembleNeigh_next b (assembleVerts b (assembleRoots b h₀).2).2
  constructor
  · intro x hx
    simp only [bAssemble, asmSliceAddrs] at hx
    rcases List.mem_append.mp hx with hx | hx
    · have hroot : (assembleRoots b h₀).1 = some x := by
        simpa using hx
      obtain ⟨heq, hlt⟩ := assembleRoots_addr b h₀ x hroot
      exact ⟨le_of_eq heq.symm, lt_of_lt_of_le hlt (m2.trans m3)⟩
    · rcases hn : (assembleNeigh b (assembleVerts b
          (assembleRoots b h₀).2).2).1 with - | na
      · rw [hn] at hx
        exact absurd hx (List.not_mem_nil x)
      · rw [hn] at hx
        rcases List.mem_map.mp hx with ⟨p, hp, rfl⟩
        obtain ⟨-, -, hbound⟩ := assembleNeigh_addr b
          (assembleVerts b (assembleRoots b h₀).2).2 na hn
        obtain ⟨hlo, hhi⟩ := hbound p hp
        exact ⟨(m1.trans m2).trans hlo, hhi⟩
  · intro x hx
    have hverts : (assembleVerts b (assembleRoots b h₀).2).1 = some x := hx
    obtain ⟨heq, hlt⟩ := assembleVerts_addr b (assembleRoots b h₀).2 x hverts
    exact ⟨heq ▸ m1, lt_of_lt_of_le hlt m3⟩

/-- The frame invariant holds immediately after Assemble for a well-formed
builder: the builder's references all predate the fresh allocations. -/
theorem bAssemble_frameInv {V : Type} (b : Builder) (h₀ : Heap V)
    (hwf : BuilderWF b h₀) :
    AsmBelow (bAssemble b h₀).1 (bAssemble b h₀).2 ∧
      FrameInv (bAssemble b h₀).1 (bAssemble b h₀).2
        (b, (bAssemble b h₀).2) := by
  obtain ⟨hslice, hverts⟩ := bAssemble_bounds b h₀
  refine ⟨⟨fun x hx => (hslice x hx).2, fun x hx => (hverts x hx).2⟩,
    le_refl _, fun x _ => rfl, fun x _ => rfl, fun x _ => rfl, ?_, ?_⟩
  · intro ra hra hmem
    have h1 := hwf.1 ra hra
    have h2 := (hslice ra hmem).1
    omega
  · intro na hna hveq
    have h1 := hwf.2.1 na hna
    have h2 := (hverts na hveq).1
    omega

/-- C9: Assemble returns an Assembly whose roots, node mapping and adjacency
mapping are copies of the builder's internal state: for every well-formed
builder, any sequence of subsequent builder mutations (Nodes, Connect, Roots,
Reset) leaves the roots, nodes and edges of a previously assembled Assembly
unchanged. -/
theorem assemble_immutable {V : Type} (cav : V → NodeHash) (b : Builder)
    (h₀ : Heap V) (hwf : BuilderWF b h₀) (ops : List (BOp V)) :
    readAssembly
        (bApplyAll cav ops (b, (bAssemble b h₀).2)).2 (bAssemble b h₀).1
      = readAssembly (bAssemble b h₀).2 (bAssemble b h₀).1 := by
  obtain ⟨hb, hinv⟩ := bAssemble_frameInv b h₀ hwf
  exact readAssembly_eq_of_frameInv (bAssemble b h₀).1 (bAssemble b h₀).2 _
    (frameInv_all cav (bAssemble b h₀).1 (bAssemble b h₀).2 hb ops
      (b, (bAssemble b h₀).2) hinv)

/-- A concrete heap holding a one-root, one-node builder state. -/
def sampleHeap : Heap Nat :=
  { next := 2
    slices := fun a => if a = 0 then [[5]] else []
    vmaps := fun a => if a = 1 then [([5], 5)] else []
    nsets := fun _ => []
    nmapsS := fun _ => []
    nmapsL := fun _ => [] }

/-- A concrete builder whose roots array and nodes map live at addresses 0
and 1 of sampleHeap. -/
def sampleBuilder : Builder :=
  { rootsArr := some 0, rootsLen := 1, nodes := some 1, neighbours := none }

theorem sampleBuilder_wf : BuilderWF sampleBuilder sampleHeap := by
  refine ⟨?_, ?_, ?_⟩ <;> intro a ha <;>
    simp [sampleBuilder] at ha <;> simp [sampleHeap, ← ha]

/-- Witness for C9 at a concrete input: after assembling a one-root builder,
a Roots replacement, a Connect, a Nodes call and a Reset leave the assembled
graph's reads unchanged. -/
theorem assemble_immutable_witness :
    BuilderWF sampleBuilder sampleHeap ∧
      readAssembly
          (bApplyAll (fun v => [v])
            [BOp.roots [7], BOp.connect 8 9, BOp.nodes [6], BOp.reset]
            (sampleBuilder, (bAssemble sampleBuilder sampleHeap).2)).2
          (bAssemble sampleBuilder sampleHeap).1
        = readAssembly (bAssemble sampleBuilder sampleHeap).2
            (bAssemble sampleBuilder sampleHeap).1 :=
  ⟨sampleBuilder_wf,
    assemble_immutable (fun v => [v]) sampleBuilder sampleHeap
      sampleBuilder_wf [BOp.roots [7], BOp.connect 8 9, BOp.nodes [6],
        BOp.reset]⟩

end DigitalTwin
